import Mathlib

/-!
Shallow embedding of the d1x matching engine core (src/types/mod.rs,
src/types/stock.rs), used to check the specification claims against the
code.

Modelling conventions:
  * usize is modelled as Nat (no overflow arises in the checked claims).
  * f64 price values are modelled as exact rationals; the stored
    fixed-point price is a Nat, exactly as in the source.
  * DateTime timestamps are modelled as Nat ticks.
  * Vec push, retain and sort_by are modelled as list append, filter and
    a stable sort (insertion sort; sort_by in the source is stable).
  * HashMap is modelled as an insertion-ordered association list; the
    results the claims depend on are lookups and sorted price lists,
    which do not depend on HashMap iteration order.
-/

namespace D1x

/-- Scaling factor for the number of decimals kept in prices. -/
def PRICE_PRECISION_FACTOR : ℚ := 100

/-- Number of unique prices returned by an order book depth query. -/
def NO_OF_PRICES_QUERIED : ℕ := 5

/-- A limit order (struct Order in stock.rs): fixed-point price and a
residual quantity. -/
structure Order where
  creator_id : ℕ
  price : ℕ
  quantity : ℕ
  time : ℕ
deriving DecidableEq

/-- Creates a new order (Order::new); the real price is truncated onto
the fixed-point grid. -/
def Order.new (creator_id : ℕ) (price : ℚ) (quantity : ℕ) (time : ℕ) : Order :=
  { creator_id := creator_id,
    price := (⌊price * PRICE_PRECISION_FACTOR⌋).toNat,
    quantity := quantity,
    time := time }

/-- Price per stock, adjusted out of fixed point (Order::get_price). -/
def Order.get_price (o : Order) : ℚ := (o.price : ℚ) / PRICE_PRECISION_FACTOR

/-- Total value of the order (Order::get_value). -/
def Order.get_value (o : Order) : ℚ :=
  (o.price : ℚ) * (o.quantity : ℚ) / PRICE_PRECISION_FACTOR

/-- Reduces the quantity of the order by the given amount (Order::resolve). -/
def Order.resolve (o : Order) (quantity : ℕ) : Order :=
  { o with quantity := o.quantity - quantity }

/-- The fields of an order other than its residual quantity. -/
def Order.sig (o : Order) : ℕ × ℕ × ℕ := (o.creator_id, o.price, o.time)

/-- Open, high, low, close prices for a stock (struct Ohlc). -/
structure Ohlc where
  «open» : Option ℚ
  high : Option ℚ
  low : Option ℚ
  close : Option ℚ
deriving DecidableEq

/-- A blank OHLC record (Ohlc::new). -/
def Ohlc.new : Ohlc := { «open» := none, high := none, low := none, close := none }

/-- Updates the OHLC values with the latest trade price (Ohlc::update). -/
def Ohlc.update (o : Ohlc) (latest_price : ℚ) : Ohlc :=
  { «open» := if o.«open».isNone then some latest_price else o.«open»,
    high := some (max (o.high.getD latest_price) latest_price),
    low := some (min (o.low.getD latest_price) latest_price),
    close := some latest_price }

/-- Returns the four OHLC prices (Ohlc::get). -/
def Ohlc.get (o : Ohlc) : Option ℚ × Option ℚ × Option ℚ × Option ℚ :=
  (o.«open», o.high, o.low, o.close)

/-- Folds a sequence of trade prices into an OHLC record. -/
def Ohlc.apply (o : Ohlc) (ps : List ℚ) : Ohlc := ps.foldl Ohlc.update o

/-- A resolved trade log (struct Trade). -/
structure Trade where
  buyer_id : ℕ
  seller_id : ℕ
  price : ℚ
  quantity : ℕ
deriving DecidableEq

/-- Trade::new. -/
def Trade.new (buyer_id seller_id : ℕ) (price : ℚ) (quantity : ℕ) : Trade :=
  { buyer_id := buyer_id, seller_id := seller_id, price := price, quantity := quantity }

/-- One fired match inside Stock::resolve, instrumented with the states
of the two matched orders immediately before and after the match. The
trade list returned by the embedded Stock.resolve is exactly the
projection MatchRec.trade of these records. -/
structure MatchRec where
  trade : Trade
  buyBefore : Order
  sellBefore : Order
  buyAfter : Order
  sellAfter : Order
deriving DecidableEq

/-- Result of the inner loop of Stock::resolve for one buy order. -/
structure InnerRes where
  buy : Order
  sells : List Order
  fired : List MatchRec
  ohlc : Ohlc
deriving DecidableEq

/-- Result of the outer loop of Stock::resolve. -/
structure OuterRes where
  buys : List Order
  sells : List Order
  fired : List MatchRec
  ohlc : Ohlc
deriving DecidableEq

/-- The inner loop of Stock::resolve: one buy order walks the sell
queue, skipping spent sells, firing a match while the buy price is at
least the sell price, and breaking otherwise. -/
def matchSells : Order → List Order → Ohlc → InnerRes
  | buy, [], ohlc => { buy := buy, sells := [], fired := [], ohlc := ohlc }
  | buy, s :: rest, ohlc =>
    if s.quantity = 0 then
      let r := matchSells buy rest ohlc
      { buy := r.buy, sells := s :: r.sells, fired := r.fired, ohlc := r.ohlc }
    else if s.get_price ≤ buy.get_price then
      let price := if s.time < buy.time then s.get_price else buy.get_price
      let q := min buy.quantity s.quantity
      let buy2 := buy.resolve q
      let s2 := s.resolve q
      let m : MatchRec :=
        { trade := Trade.new buy.creator_id s.creator_id price q,
          buyBefore := buy, sellBefore := s, buyAfter := buy2, sellAfter := s2 }
      let ohlc2 := ohlc.update price
      if buy2.quantity = 0 then
        { buy := buy2, sells := s2 :: rest, fired := [m], ohlc := ohlc2 }
      else
        let r := matchSells buy2 rest ohlc2
        { buy := r.buy, sells := s2 :: r.sells, fired := m :: r.fired, ohlc := r.ohlc }
    else
      { buy := buy, sells := s :: rest, fired := [], ohlc := ohlc }

/-- The outer loop of Stock::resolve: iterate buys from the highest bid,
stopping when the sell queue is empty or the best sell price strictly
exceeds the current buy price. -/
def matchBuys : List Order → List Order → Ohlc → OuterRes
  | [], sells, ohlc => { buys := [], sells := sells, fired := [], ohlc := ohlc }
  | b :: rest, [], ohlc => { buys := b :: rest, sells := [], fired := [], ohlc := ohlc }
  | b :: rest, s0 :: stail, ohlc =>
    if b.get_price < s0.get_price then
      { buys := b :: rest, sells := s0 :: stail, fired := [], ohlc := ohlc }
    else
      let r1 := matchSells b (s0 :: stail) ohlc
      let r2 := matchBuys rest r1.sells r1.ohlc
      { buys := r1.buy :: r2.buys, sells := r2.sells,
        fired := r1.fired ++ r2.fired, ohlc := r2.ohlc }

/-- Holds details for a stock and its orders (struct Stock). -/
structure Stock where
  symbol : String
  name : String
  buy_orders : List Order
  sell_orders : List Order
  ohlc : Ohlc
deriving DecidableEq

/-- Comparator used to sort buy orders: descending price. -/
def buyLe (a b : Order) : Prop := b.price ≤ a.price

/-- Comparator used to sort sell orders: ascending price. -/
def sellLe (a b : Order) : Prop := a.price ≤ b.price

instance : DecidableRel buyLe := fun a b => inferInstanceAs (Decidable (b.price ≤ a.price))

instance : DecidableRel sellLe := fun a b => inferInstanceAs (Decidable (a.price ≤ b.price))

instance : IsTotal Order buyLe := ⟨fun a b => Nat.le_total b.price a.price⟩

instance : IsTrans Order buyLe := ⟨fun _ _ _ h1 h2 => Nat.le_trans h2 h1⟩

instance : IsTotal Order sellLe := ⟨fun a b => Nat.le_total a.price b.price⟩

instance : IsTrans Order sellLe := ⟨fun _ _ _ h1 h2 => Nat.le_trans h1 h2⟩

/-- Sorts buy and sell orders by price (Stock::sort_orders). The source
sorts with the stable Vec sort_by on the stored integer price; a stable
sort is modelled by insertion sort. -/
def Stock.sort_orders (st : Stock) : Stock :=
  { st with buy_orders := st.buy_orders.insertionSort buyLe,
            sell_orders := st.sell_orders.insertionSort sellLe }

/-- Stock::new. -/
def Stock.new (symbol name : String) : Stock :=
  { symbol := symbol, name := name, buy_orders := [], sell_orders := [],
    ohlc := Ohlc.new }

/-- Adds a buy order, then re-sorts (Stock::add_buy_order). -/
def Stock.add_buy_order (st : Stock) (order : Order) : Stock :=
  Stock.sort_orders { st with buy_orders := st.buy_orders ++ [order] }

/-- Adds a sell order, then re-sorts (Stock::add_sell_order). -/
def Stock.add_sell_order (st : Stock) (order : Order) : Stock :=
  Stock.sort_orders { st with sell_orders := st.sell_orders ++ [order] }

/-- Association-list lookup, modelling HashMap::get. -/
def alistGet? {κ β : Type} [DecidableEq κ] (k : κ) : List (κ × β) → Option β
  | [] => none
  | e :: t => if e.1 = k then some e.2 else alistGet? k t

/-- Association-list insert, modelling HashMap::insert: existing keys
are updated in place, new keys are appended. -/
def alistInsert {κ β : Type} [DecidableEq κ] (k : κ) (v : β) :
    List (κ × β) → List (κ × β)
  | [] => [(k, v)]
  | e :: t => if e.1 = k then (k, v) :: t else e :: alistInsert k v t

/-- The aggregation loop shared by Stock::get_buy_orders and
Stock::get_sell_orders: group residual quantity by unadjusted price,
stopping when a new price is found while NO_OF_PRICES_QUERIED distinct
prices are already collected. -/
def buildPricelist : List Order → List (ℕ × ℕ) → List (ℕ × ℕ)
  | [], acc => acc
  | o :: rest, acc =>
    match alistGet? o.price acc with
    | some q => buildPricelist rest (alistInsert o.price (q + o.quantity) acc)
    | none =>
      if NO_OF_PRICES_QUERIED ≤ acc.length then acc
      else buildPricelist rest (alistInsert o.price o.quantity acc)

/-- Conversion of one aggregated price level to the externally facing
pair of real price and quantity. -/
def toDepthEntry (kv : ℕ × ℕ) : ℚ × ℕ := ((kv.1 : ℚ) / PRICE_PRECISION_FACTOR, kv.2)

/-- Comparator for the buy depth listing: descending price. -/
def depthDesc (a b : ℚ × ℕ) : Prop := b.1 ≤ a.1

/-- Comparator for the sell depth listing: ascending price. -/
def depthAsc (a b : ℚ × ℕ) : Prop := a.1 ≤ b.1

instance : DecidableRel depthDesc := fun a b => inferInstanceAs (Decidable (b.1 ≤ a.1))

instance : DecidableRel depthAsc := fun a b => inferInstanceAs (Decidable (a.1 ≤ b.1))

/-- Pending buy depth: top price levels, descending (Stock::get_buy_orders). -/
def Stock.get_buy_orders (st : Stock) : List (ℚ × ℕ) :=
  ((buildPricelist st.buy_orders []).map toDepthEntry).insertionSort depthDesc

/-- Pending sell depth: top price levels, ascending (Stock::get_sell_orders). -/
def Stock.get_sell_orders (st : Stock) : List (ℚ × ℕ) :=
  ((buildPricelist st.sell_orders []).map toDepthEntry).insertionSort depthAsc

/-- The instrumented run of Stock::resolve over a book. -/
def Stock.resolveRes (st : Stock) : OuterRes :=
  matchBuys st.buy_orders st.sell_orders st.ohlc

/-- The match records fired by Stock::resolve on this book. -/
def Stock.resolveMatches (st : Stock) : List MatchRec := st.resolveRes.fired

/-- Resolves trades between buy and sell orders (Stock::resolve):
returns the book after the call together with the emitted trades. -/
def Stock.resolve (st : Stock) : Stock × List Trade :=
  let r := st.resolveRes
  ({ st with buy_orders := r.buys.filter (fun o => decide (0 < o.quantity)),
             sell_orders := r.sells.filter (fun o => decide (0 < o.quantity)),
             ohlc := r.ohlc },
   r.fired.map MatchRec.trade)

/-- Stock::get_ohlc. -/
def Stock.get_ohlc (st : Stock) : Option ℚ × Option ℚ × Option ℚ × Option ℚ :=
  st.ohlc.get

/-- The market (struct Market in types/mod.rs). The source inserts each
stock keyed by Stock::get_name, mod.rs line 22. The user map of the
source is omitted: no modelled operation reads it. -/
structure Market where
  stocks : List (String × Stock)
deriving DecidableEq

/-- Market::new. -/
def Market.new : Market := { stocks := [] }

/-- Market::add_stock: inserts the stock keyed by its name field. -/
def Market.add_stock (m : Market) (stock : Stock) : Market :=
  { stocks := alistInsert stock.name stock m.stocks }

/-- Market::get_stock; Market::get_stock_mut reaches the same entry. -/
def Market.get_stock (m : Market) (symbol : String) : Option Stock :=
  alistGet? symbol m.stocks

/-- One pass of Market::resolve over the stock entries. -/
def resolveStocks : List (String × Stock) → List (String × Stock) × List (String × List Trade)
  | [] => ([], [])
  | e :: rest =>
    let r := e.2.resolve
    let rr := resolveStocks rest
    ((e.1, r.1) :: rr.1, (e.2.name, r.2) :: rr.2)

/-- Market::resolve: resolves every book and returns one labelled trade
list per book; the label is the stock name field. -/
def Market.resolve (m : Market) : Market × List (String × List Trade) :=
  let r := resolveStocks m.stocks
  ({ stocks := r.1 }, r.2)

/-- Follows the spec words (section 4.3, Numeric semantics): the inner
loop with every price comparison taken on the fixed-point integer
representation, dividing by the precision only for the emitted trade
price and the OHLC. Compared against matchSells, whose guards follow
the source and compare the divided prices. -/
def matchSellsIntCmp : Order → List Order → Ohlc → InnerRes
  | buy, [], ohlc => { buy := buy, sells := [], fired := [], ohlc := ohlc }
  | buy, s :: rest, ohlc =>
    if s.quantity = 0 then
      let r := matchSellsIntCmp buy rest ohlc
      { buy := r.buy, sells := s :: r.sells, fired := r.fired, ohlc := r.ohlc }
    else if s.price ≤ buy.price then
      let price := if s.time < buy.time then s.get_price else buy.get_price
      let q := min buy.quantity s.quantity
      let buy2 := buy.resolve q
      let s2 := s.resolve q
      let m : MatchRec :=
        { trade := Trade.new buy.creator_id s.creator_id price q,
          buyBefore := buy, sellBefore := s, buyAfter := buy2, sellAfter := s2 }
      let ohlc2 := ohlc.update price
      if buy2.quantity = 0 then
        { buy := buy2, sells := s2 :: rest, fired := [m], ohlc := ohlc2 }
      else
        let r := matchSellsIntCmp buy2 rest ohlc2
        { buy := r.buy, sells := s2 :: r.sells, fired := m :: r.fired, ohlc := r.ohlc }
    else
      { buy := buy, sells := s :: rest, fired := [], ohlc := ohlc }

/-- Follows the spec words: the outer loop with the stop test taken on
the fixed-point integer representation of the prices. -/
def matchBuysIntCmp : List Order → List Order → Ohlc → OuterRes
  | [], sells, ohlc => { buys := [], sells := sells, fired := [], ohlc := ohlc }
  | b :: rest, [], ohlc => { buys := b :: rest, sells := [], fired := [], ohlc := ohlc }
  | b :: rest, s0 :: stail, ohlc =>
    if b.price < s0.price then
      { buys := b :: rest, sells := s0 :: stail, fired := [], ohlc := ohlc }
    else
      let r1 := matchSellsIntCmp b (s0 :: stail) ohlc
      let r2 := matchBuysIntCmp rest r1.sells r1.ohlc
      { buys := r1.buy :: r2.buys, sells := r2.sells,
        fired := r1.fired ++ r2.fired, ohlc := r2.ohlc }

/-- Follows the spec words: Stock::resolve with all internal price
comparisons on the stored integers. -/
def Stock.resolveIntCmp (st : Stock) : Stock × List Trade :=
  let r := matchBuysIntCmp st.buy_orders st.sell_orders st.ohlc
  ({ st with buy_orders := r.buys.filter (fun o => decide (0 < o.quantity)),
             sell_orders := r.sells.filter (fun o => decide (0 < o.quantity)),
             ohlc := r.ohlc },
   r.fired.map MatchRec.trade)

/-- Strong ordering on the buy queue: strictly descending price, with
equal prices in ascending submission time order. -/
def SBuy (a b : Order) : Prop := b.price < a.price ∨ (a.price = b.price ∧ a.time ≤ b.time)

/-- Strong ordering on the sell queue: strictly ascending price, with
equal prices in ascending submission time order. -/
def SSell (a b : Order) : Prop := a.price < b.price ∨ (a.price = b.price ∧ a.time ≤ b.time)

instance : DecidableRel SBuy :=
  fun _ _ => inferInstanceAs (Decidable (_ ∨ _))

instance : DecidableRel SSell :=
  fun _ _ => inferInstanceAs (Decidable (_ ∨ _))

/-- Tie discipline between two orders: at equal prices the first was
submitted no later than the second. -/
def TieOk (a b : Order) : Prop := a.price = b.price → a.time ≤ b.time

/-- Book well-formedness: both queues strongly sorted and free of spent
orders. -/
def Stock.WF (st : Stock) : Prop :=
  st.buy_orders.Pairwise SBuy ∧ st.sell_orders.Pairwise SSell ∧
    (∀ o ∈ st.buy_orders, 0 < o.quantity) ∧ (∀ o ∈ st.sell_orders, 0 < o.quantity)

instance (st : Stock) : Decidable st.WF :=
  inferInstanceAs (Decidable (_ ∧ _ ∧ _ ∧ _))

/-- Displayed quantity at a given price level of a depth listing (0 when
the level is not displayed). -/
def levelQty : List (ℚ × ℕ) → ℚ → ℕ
  | [], _ => 0
  | e :: t, p => if e.1 = p then e.2 else levelQty t p

/-- Total residual quantity of an order list at one fixed-point price. -/
def sumQty (l : List Order) (p : ℕ) : ℕ :=
  ((l.filter (fun o => decide (o.price = p))).map Order.quantity).sum

/-- Keys of an association list. -/
def keysOf {κ β : Type} (l : List (κ × β)) : List κ := l.map Prod.fst

/-- Scenario S1 book: buy(id 1, price 150.50, qty 10) added first, then
sell(id 2, price 150.00, qty 5). -/
def s1Book : Stock :=
  ((Stock.new "ORT" "Orchard de Rosa et Tulipan").add_buy_order
      (Order.new 1 150.5 10 0)).add_sell_order (Order.new 2 150 5 1)

/-- Scenario S4 book: buy(id 1, price 200.00, qty 5) at time 0, then
sell(id 2, price 180.00, qty 5) at time 1. -/
def s4Book : Stock :=
  ((Stock.new "V" "Vulyenne").add_buy_order (Order.new 1 200 5 0)).add_sell_order
    (Order.new 2 180 5 1)

/-- Everything that holds of a fired match record by construction of the
inner loop of Stock::resolve. -/
def MatchOk (m : MatchRec) : Prop :=
  m.trade.price =
      (if m.sellBefore.time < m.buyBefore.time then m.sellBefore.get_price
        else m.buyBefore.get_price) ∧
    m.trade.quantity = min m.buyBefore.quantity m.sellBefore.quantity ∧
    m.sellBefore.get_price ≤ m.buyBefore.get_price ∧
    m.buyAfter = m.buyBefore.resolve m.trade.quantity ∧
    m.sellAfter = m.sellBefore.resolve m.trade.quantity ∧
    m.trade.buyer_id = m.buyBefore.creator_id ∧
    m.trade.seller_id = m.sellBefore.creator_id

/-- Evaluation of the S1 buy order onto the fixed-point grid. -/
theorem ordS1Buy_eval :
    Order.new 1 150.5 10 0 = { creator_id := 1, price := 15050, quantity := 10, time := 0 } := by
  simp only [Order.new, PRICE_PRECISION_FACTOR]
  norm_num
  rfl

/-- Evaluation of the S1 sell order onto the fixed-point grid. -/
theorem ordS1Sell_eval :
    Order.new 2 150 5 1 = { creator_id := 2, price := 15000, quantity := 5, time := 1 } := by
  simp only [Order.new, PRICE_PRECISION_FACTOR]
  norm_num
  rfl

/-- Evaluation of the S4 buy order onto the fixed-point grid. -/
theorem ordS4Buy_eval :
    Order.new 1 200 5 0 = { creator_id := 1, price := 20000, quantity := 5, time := 0 } := by
  simp only [Order.new, PRICE_PRECISION_FACTOR]
  norm_num
  rfl

/-- Evaluation of the S4 sell order onto the fixed-point grid. -/
theorem ordS4Sell_eval :
    Order.new 2 180 5 1 = { creator_id := 2, price := 18000, quantity := 5, time := 1 } := by
  simp only [Order.new, PRICE_PRECISION_FACTOR]
  norm_num
  rfl

/-- The S1 book in explicit form. -/
theorem s1Book_eval :
    s1Book =
      { symbol := "ORT", name := "Orchard de Rosa et Tulipan",
        buy_orders := [{ creator_id := 1, price := 15050, quantity := 10, time := 0 }],
        sell_orders := [{ creator_id := 2, price := 15000, quantity := 5, time := 1 }],
        ohlc := Ohlc.new } := by
  simp [s1Book, Stock.add_buy_order, Stock.add_sell_order, Stock.sort_orders, Stock.new,
    ordS1Buy_eval, ordS1Sell_eval, List.insertionSort, List.orderedInsert]

/-- The S4 book in explicit form. -/
theorem s4Book_eval :
    s4Book =
      { symbol := "V", name := "Vulyenne",
        buy_orders := [{ creator_id := 1, price := 20000, quantity := 5, time := 0 }],
        sell_orders := [{ creator_id := 2, price := 18000, quantity := 5, time := 1 }],
        ohlc := Ohlc.new } := by
  simp [s4Book, Stock.add_buy_order, Stock.add_sell_order, Stock.sort_orders, Stock.new,
    ordS4Buy_eval, ordS4Sell_eval, List.insertionSort, List.orderedInsert]

/-- Full evaluation of Stock::resolve on the S1 book: one trade at the
price of the earlier (buy) order, 150.50, leaving 5 shares of the buy. -/
theorem s1_resolve_eval :
    s1Book.resolve =
      ({ symbol := "ORT", name := "Orchard de Rosa et Tulipan",
         buy_orders := [{ creator_id := 1, price := 15050, quantity := 5, time := 0 }],
         sell_orders := [],
         ohlc := { «open» := some 150.5, high := some 150.5, low := some 150.5,
                   close := some 150.5 } },
       [Trade.new 1 2 150.5 5]) := by
  rw [Stock.resolve, Stock.resolveRes, s1Book_eval]
  norm_num [matchBuys, matchSells, Order.get_price, Order.resolve, Ohlc.update, Ohlc.new,
    Trade.new, PRICE_PRECISION_FACTOR, List.filter]

/-- Full evaluation of Stock::resolve on the S4 book: one trade at the
price of the earlier (buy) order, 200.00, emptying both queues. -/
theorem s4_resolve_eval :
    s4Book.resolve =
      ({ symbol := "V", name := "Vulyenne",
         buy_orders := [], sell_orders := [],
         ohlc := { «open» := some 200, high := some 200, low := some 200,
                   close := some 200 } },
       [Trade.new 1 2 200 5]) := by
  rw [Stock.resolve, Stock.resolveRes, s4Book_eval]
  norm_num [matchBuys, matchSells, Order.get_price, Order.resolve, Ohlc.update, Ohlc.new,
    Trade.new, PRICE_PRECISION_FACTOR, List.filter]

/-- Dividing by the positive precision factor preserves and reflects
order of the stored integer prices. -/
theorem get_price_le_iff (a b : Order) : a.get_price ≤ b.get_price ↔ a.price ≤ b.price := by
  unfold Order.get_price PRICE_PRECISION_FACTOR
  rw [div_le_div_iff_of_pos_right (by norm_num : (0 : ℚ) < 100)]
  exact Nat.cast_le

/-- Strict version of get_price_le_iff. -/
theorem get_price_lt_iff (a b : Order) : a.get_price < b.get_price ↔ a.price < b.price := by
  unfold Order.get_price PRICE_PRECISION_FACTOR
  rw [div_lt_div_iff_of_pos_right (by norm_num : (0 : ℚ) < 100)]
  exact Nat.cast_lt

/-- The source inner loop, which compares divided prices, is equal to
the spec-worded inner loop comparing stored integers. -/
theorem matchSells_eq_intCmp (sells : List Order) (buy : Order) (ohlc : Ohlc) :
    matchSells buy sells ohlc = matchSellsIntCmp buy sells ohlc := by
  induction sells generalizing buy ohlc with
  | nil => rfl
  | cons s rest ih =>
    simp only [matchSells, matchSellsIntCmp]
    by_cases h0 : s.quantity = 0
    · simp [h0, ih]
    · by_cases hp : s.price ≤ buy.price
      · have hp2 : s.get_price ≤ buy.get_price := (get_price_le_iff s buy).mpr hp
        simp [h0, hp, hp2, ih]
      · have hp2 : ¬ s.get_price ≤ buy.get_price := fun hc => hp ((get_price_le_iff s buy).mp hc)
        simp [h0, hp, hp2]

/-- The source outer loop is equal to the spec-worded outer loop
comparing stored integers. -/
theorem matchBuys_eq_intCmp (buys : List Order) (sells : List Order) (ohlc : Ohlc) :
    matchBuys buys sells ohlc = matchBuysIntCmp buys sells ohlc := by
  induction buys generalizing sells ohlc with
  | nil => cases sells <;> rfl
  | cons b rest ih =>
    cases sells with
    | nil => rfl
    | cons s0 stail =>
      simp only [matchBuys, matchBuysIntCmp]
      by_cases hp : b.price < s0.price
      · have hp2 : b.get_price < s0.get_price := (get_price_lt_iff b s0).mpr hp
        simp [hp, hp2]
      · have hp2 : ¬ b.get_price < s0.get_price := fun hc => hp ((get_price_lt_iff b s0).mp hc)
        simp [hp, hp2, matchSells_eq_intCmp, ih]

/-- C9: all matching comparisons are equivalent to comparisons of the
stored fixed-point integers: the whole of Stock::resolve is unchanged
when every internal price comparison is taken on the stored integers,
and two orders with equal stored prices always compare as equal. The f64
arithmetic of the source is modelled as exact rational arithmetic. -/
theorem c9_fixed_point_comparisons (st : Stock) (a b : Order) :
    st.resolve = st.resolveIntCmp ∧
      (a.get_price ≤ b.get_price ↔ a.price ≤ b.price) ∧
      (a.get_price < b.get_price ↔ a.price < b.price) ∧
      (a.price = b.price → a.get_price = b.get_price) := by
  refine ⟨?_, get_price_le_iff a b, get_price_lt_iff a b, ?_⟩
  · simp [Stock.resolve, Stock.resolveRes, Stock.resolveIntCmp, matchBuys_eq_intCmp]
  · intro h
    simp [Order.get_price, h]

/-- Witness for C9 at the S4 book and a concrete order. -/
theorem c9_witness :
    s4Book.resolve = s4Book.resolveIntCmp ∧
      (Order.new 1 200 5 0).get_price = (Order.new 1 200 5 0).get_price :=
  ⟨(c9_fixed_point_comparisons s4Book (Order.new 1 200 5 0) (Order.new 1 200 5 0)).1,
    (c9_fixed_point_comparisons s4Book (Order.new 1 200 5 0) (Order.new 1 200 5 0)).2.2.2 rfl⟩

/-- Every match record fired by the inner loop satisfies MatchOk. -/
theorem matchSells_ok (sells : List Order) (buy : Order) (ohlc : Ohlc) :
    ∀ m ∈ (matchSells buy sells ohlc).fired, MatchOk m := by
  induction sells generalizing buy ohlc with
  | nil => intro m hm; simp [matchSells] at hm
  | cons s rest ih =>
    intro m hm
    simp only [matchSells] at hm
    by_cases h0 : s.quantity = 0
    · rw [if_pos h0] at hm
      exact ih buy ohlc m hm
    · rw [if_neg h0] at hm
      by_cases hp : s.get_price ≤ buy.get_price
      · rw [if_pos hp] at hm
        by_cases hq : (buy.resolve (min buy.quantity s.quantity)).quantity = 0
        · rw [if_pos hq] at hm
          simp only [List.mem_singleton] at hm
          subst hm
          exact ⟨rfl, rfl, hp, rfl, rfl, rfl, rfl⟩
        · rw [if_neg hq] at hm
          simp only [List.mem_cons] at hm
          rcases hm with hm | hm
          · subst hm
            exact ⟨rfl, rfl, hp, rfl, rfl, rfl, rfl⟩
          · exact ih _ _ m hm
      · rw [if_neg hp] at hm
        simp at hm

/-- Every match record fired by the outer loop satisfies MatchOk. -/
theorem matchBuys_ok (buys : List Order) (sells : List Order) (ohlc : Ohlc) :
    ∀ m ∈ (matchBuys buys sells ohlc).fired, MatchOk m := by
  induction buys generalizing sells ohlc with
  | nil => intro m hm; cases sells <;> simp [matchBuys] at hm
  | cons b rest ih =>
    intro m hm
    cases sells with
    | nil => simp [matchBuys] at hm
    | cons s0 stail =>
      simp only [matchBuys] at hm
      by_cases hp : b.get_price < s0.get_price
      · rw [if_pos hp] at hm
        simp at hm
      · rw [if_neg hp] at hm
        simp only [List.mem_append] at hm
        rcases hm with hm | hm
        · exact matchSells_ok _ _ _ m hm
        · exact ih _ _ m hm

/-- Every match record of Stock::resolve satisfies MatchOk, and the
trades returned by Stock::resolve are their projections. -/
theorem resolve_ok (st : Stock) :
    (∀ m ∈ st.resolveMatches, MatchOk m) ∧
      st.resolve.2 = st.resolveMatches.map MatchRec.trade :=
  ⟨matchBuys_ok st.buy_orders st.sell_orders st.ohlc, rfl⟩

/-- C3: every trade emitted by Stock::resolve executes at the limit
price of whichever matched order has the strictly earlier submission
timestamp, and at the buyer limit price when the timestamps are equal. -/
theorem c3_price_of_earlier_order (st : Stock) (t : Trade) (ht : t ∈ st.resolve.2) :
    ∃ m ∈ st.resolveMatches, m.trade = t ∧
      (m.sellBefore.time < m.buyBefore.time → t.price = m.sellBefore.get_price) ∧
      (m.buyBefore.time < m.sellBefore.time → t.price = m.buyBefore.get_price) ∧
      (m.buyBefore.time = m.sellBefore.time → t.price = m.buyBefore.get_price) := by
  rw [(resolve_ok st).2, List.mem_map] at ht
  obtain ⟨m, hm, hmt⟩ := ht
  have hok := (resolve_ok st).1 m hm
  refine ⟨m, hm, hmt, ?_, ?_, ?_⟩
  · intro h
    rw [← hmt, hok.1, if_pos h]
  · intro h
    rw [← hmt, hok.1, if_neg (by omega)]
  · intro h
    rw [← hmt, hok.1, if_neg (by omega)]

/-- Witness for C3: the S4 cross (buy 200.00 earlier than sell 180.00)
executes at the buyer price 200.00. -/
theorem c3_witness :
    ∃ m ∈ s4Book.resolveMatches, m.trade = Trade.new 1 2 200 5 ∧
      (m.sellBefore.time < m.buyBefore.time →
        (Trade.new 1 2 200 5).price = m.sellBefore.get_price) ∧
      (m.buyBefore.time < m.sellBefore.time →
        (Trade.new 1 2 200 5).price = m.buyBefore.get_price) ∧
      (m.buyBefore.time = m.sellBefore.time →
        (Trade.new 1 2 200 5).price = m.buyBefore.get_price) :=
  c3_price_of_earlier_order s4Book (Trade.new 1 2 200 5) (by rw [s4_resolve_eval]; simp)

/-- C4: every match fires for the minimum of the two residuals, both
residuals decrease by exactly the trade quantity, and neither price nor
identity field of the matched orders changes. -/
theorem c4_min_quantity_conservation (st : Stock) (t : Trade) (ht : t ∈ st.resolve.2) :
    ∃ m ∈ st.resolveMatches, m.trade = t ∧
      t.quantity = min m.buyBefore.quantity m.sellBefore.quantity ∧
      m.buyAfter.quantity + t.quantity = m.buyBefore.quantity ∧
      m.sellAfter.quantity + t.quantity = m.sellBefore.quantity ∧
      m.buyAfter.price = m.buyBefore.price ∧
      m.sellAfter.price = m.sellBefore.price := by
  rw [(resolve_ok st).2, List.mem_map] at ht
  obtain ⟨m, hm, hmt⟩ := ht
  have hok := (resolve_ok st).1 m hm
  have hq : m.trade.quantity = min m.buyBefore.quantity m.sellBefore.quantity := hok.2.1
  have hb : m.buyAfter = m.buyBefore.resolve m.trade.quantity := hok.2.2.2.1
  have hs : m.sellAfter = m.sellBefore.resolve m.trade.quantity := hok.2.2.2.2.1
  have hqb : m.trade.quantity ≤ m.buyBefore.quantity := hq ▸ Nat.min_le_left _ _
  have hqs : m.trade.quantity ≤ m.sellBefore.quantity := hq ▸ Nat.min_le_right _ _
  subst hmt
  refine ⟨m, hm, rfl, hq, ?_, ?_, ?_, ?_⟩
  · rw [hb]
    simp only [Order.resolve]
    omega
  · rw [hs]
    simp only [Order.resolve]
    omega
  · rw [hb]
    rfl
  · rw [hs]
    rfl

/-- Witness for C4 at the S1 cross: quantity 5 = min 10 5, buy residual
10 to 5, sell residual 5 to 0. -/
theorem c4_witness :
    ∃ m ∈ s1Book.resolveMatches, m.trade = Trade.new 1 2 150.5 5 ∧
      (Trade.new 1 2 150.5 5).quantity = min m.buyBefore.quantity m.sellBefore.quantity ∧
      m.buyAfter.quantity + (Trade.new 1 2 150.5 5).quantity = m.buyBefore.quantity ∧
      m.sellAfter.quantity + (Trade.new 1 2 150.5 5).quantity = m.sellBefore.quantity ∧
      m.buyAfter.price = m.buyBefore.price ∧
      m.sellAfter.price = m.sellBefore.price :=
  c4_min_quantity_conservation s1Book (Trade.new 1 2 150.5 5) (by rw [s1_resolve_eval]; simp)

/-- C5: every trade emitted by Stock::resolve executes at a price
between the sell limit and the buy limit of the matched orders. -/
theorem c5_price_feasible (st : Stock) (t : Trade) (ht : t ∈ st.resolve.2) :
    ∃ m ∈ st.resolveMatches, m.trade = t ∧
      m.sellBefore.get_price ≤ t.price ∧ t.price ≤ m.buyBefore.get_price := by
  rw [(resolve_ok st).2, List.mem_map] at ht
  obtain ⟨m, hm, hmt⟩ := ht
  have hok := (resolve_ok st).1 m hm
  refine ⟨m, hm, hmt, ?_, ?_⟩ <;> rw [← hmt, hok.1]
  · split_ifs
    · exact le_refl _
    · exact hok.2.2.1
  · split_ifs
    · exact hok.2.2.1
    · exact le_refl _

/-- Witness for C5 at the S1 cross: 150.00 ≤ 150.50 ≤ 150.50. -/
theorem c5_witness :
    ∃ m ∈ s1Book.resolveMatches, m.trade = Trade.new 1 2 150.5 5 ∧
      m.sellBefore.get_price ≤ (Trade.new 1 2 150.5 5).price ∧
      (Trade.new 1 2 150.5 5).price ≤ m.buyBefore.get_price :=
  c5_price_feasible s1Book (Trade.new 1 2 150.5 5) (by rw [s1_resolve_eval]; simp)

/-- C10: for every trade, the quantity passed to Order::resolve on each
side is bounded by the residual of that side, so the saturating model
subtraction is exact and no underflow can occur. -/
theorem c10_no_underflow (st : Stock) (t : Trade) (ht : t ∈ st.resolve.2) :
    ∃ m ∈ st.resolveMatches, m.trade = t ∧
      t.quantity ≤ m.buyBefore.quantity ∧ t.quantity ≤ m.sellBefore.quantity ∧
      m.buyAfter = m.buyBefore.resolve t.quantity ∧
      m.sellAfter = m.sellBefore.resolve t.quantity ∧
      m.buyAfter.quantity + t.quantity = m.buyBefore.quantity ∧
      m.sellAfter.quantity + t.quantity = m.sellBefore.quantity := by
  rw [(resolve_ok st).2, List.mem_map] at ht
  obtain ⟨m, hm, hmt⟩ := ht
  have hok := (resolve_ok st).1 m hm
  have hq : m.trade.quantity = min m.buyBefore.quantity m.sellBefore.quantity := hok.2.1
  have hb : m.buyAfter = m.buyBefore.resolve m.trade.quantity := hok.2.2.2.1
  have hs : m.sellAfter = m.sellBefore.resolve m.trade.quantity := hok.2.2.2.2.1
  have hqb : m.trade.quantity ≤ m.buyBefore.quantity := hq ▸ Nat.min_le_left _ _
  have hqs : m.trade.quantity ≤ m.sellBefore.quantity := hq ▸ Nat.min_le_right _ _
  subst hmt
  refine ⟨m, hm, rfl, hqb, hqs, hb, hs, ?_, ?_⟩
  · rw [hb]
    simp only [Order.resolve]
    omega
  · rw [hs]
    simp only [Order.resolve]
    omega

/-- Witness for C10 at the S4 cross. -/
theorem c10_witness :
    ∃ m ∈ s4Book.resolveMatches, m.trade = Trade.new 1 2 200 5 ∧
      (Trade.new 1 2 200 5).quantity ≤ m.buyBefore.quantity ∧
      (Trade.new 1 2 200 5).quantity ≤ m.sellBefore.quantity ∧
      m.buyAfter = m.buyBefore.resolve (Trade.new 1 2 200 5).quantity ∧
      m.sellAfter = m.sellBefore.resolve (Trade.new 1 2 200 5).quantity ∧
      m.buyAfter.quantity + (Trade.new 1 2 200 5).quantity = m.buyBefore.quantity ∧
      m.sellAfter.quantity + (Trade.new 1 2 200 5).quantity = m.sellBefore.quantity :=
  c10_no_underflow s4Book (Trade.new 1 2 200 5) (by rw [s4_resolve_eval]; simp)

/-- C2 counterexample: on the S1 book the emitted trade is not the
claimed {buyer 1, seller 2, price 150.00, qty 5}: the code (and its own
unit test test_resolve_trade) produces price 150.50, the price of the
earlier submitted buy order. -/
theorem c2_counterexample : s1Book.resolve.2 ≠ [Trade.new 1 2 150 5] := by
  rw [s1_resolve_eval]
  norm_num [Trade.new]

/-- C2 amended: the S1 cross produces exactly one trade {buyer 1,
seller 2, price 150.50, qty 5}, buy depth [(150.50, 5)], empty sell
depth, and OHLC (150.50, 150.50, 150.50, 150.50). -/
theorem c2_s1_scenario :
    s1Book.resolve.2 = [Trade.new 1 2 150.5 5] ∧
      s1Book.resolve.1.get_buy_orders = [(150.5, 5)] ∧
      s1Book.resolve.1.get_sell_orders = [] ∧
      s1Book.resolve.1.get_ohlc = (some 150.5, some 150.5, some 150.5, some 150.5) := by
  rw [s1_resolve_eval]
  refine ⟨rfl, ?_, ?_, rfl⟩
  · norm_num [Stock.get_buy_orders, buildPricelist, alistGet?, alistInsert, toDepthEntry,
      NO_OF_PRICES_QUERIED, PRICE_PRECISION_FACTOR, List.insertionSort, List.orderedInsert]
  · norm_num [Stock.get_sell_orders, buildPricelist, List.insertionSort]

/-- C1: Market::add_stock registers the book under its name, not its
symbol, so looking up the stock of symbol V by that symbol fails while
the lookup by the name Vulyenne succeeds; Market::resolve still returns
one entry for the single registered book. The Stock doc comment says the
symbol is what is used for querying the stock. -/
theorem c1_lookup_keyed_by_name :
    (Market.new.add_stock (Stock.new "V" "Vulyenne")).get_stock "V" = none ∧
      (Market.new.add_stock (Stock.new "V" "Vulyenne")).get_stock "Vulyenne" =
        some (Stock.new "V" "Vulyenne") ∧
      (Stock.new "V" "Vulyenne").symbol = "V" ∧
      (Market.new.add_stock (Stock.new "V" "Vulyenne")).resolve.2.length = 1 := by
  refine ⟨?_, ?_, rfl, ?_⟩
  · simp [Market.new, Market.add_stock, Market.get_stock, alistInsert, alistGet?, Stock.new]
  · simp [Market.new, Market.add_stock, Market.get_stock, alistInsert, alistGet?, Stock.new]
  · simp [Market.new, Market.add_stock, Market.resolve, resolveStocks, alistInsert, Stock.new]

/-- Ohlc.apply unfolds one step at a time. -/
theorem ohlc_apply_cons (o : Ohlc) (p : ℚ) (ps : List ℚ) :
    o.apply (p :: ps) = (o.update p).apply ps := rfl

/-- A set open field survives one update. -/
theorem ohlc_update_open_of_some (o : Ohlc) (p q : ℚ) (h : o.«open» = some q) :
    (o.update p).«open» = some q := by
  simp [Ohlc.update, h]

/-- A set open field survives any sequence of updates. -/
theorem ohlc_apply_open_of_some (ps : List ℚ) (o : Ohlc) (q : ℚ) (h : o.«open» = some q) :
    (o.apply ps).«open» = some q := by
  induction ps generalizing o with
  | nil => exact h
  | cons p t ih => exact ih _ (ohlc_update_open_of_some o p q h)

/-- A set high field accumulates the maximum of the prices seen. -/
theorem ohlc_apply_high_of_some (ps : List ℚ) (o : Ohlc) (q : ℚ) (h : o.high = some q) :
    (o.apply ps).high = some (ps.foldl max q) := by
  induction ps generalizing o q with
  | nil => exact h
  | cons p t ih =>
    rw [ohlc_apply_cons, List.foldl_cons]
    exact ih _ _ (by simp [Ohlc.update, h])

/-- A set low field accumulates the minimum of the prices seen. -/
theorem ohlc_apply_low_of_some (ps : List ℚ) (o : Ohlc) (q : ℚ) (h : o.low = some q) :
    (o.apply ps).low = some (ps.foldl min q) := by
  induction ps generalizing o q with
  | nil => exact h
  | cons p t ih =>
    rw [ohlc_apply_cons, List.foldl_cons]
    exact ih _ _ (by simp [Ohlc.update, h])

/-- A set close field follows the latest price seen. -/
theorem ohlc_apply_close_of_some (ps : List ℚ) (o : Ohlc) (q : ℚ) (h : o.close = some q) :
    (o.apply ps).close = some (ps.foldl (fun _ x => x) q) := by
  induction ps generalizing o q with
  | nil => exact h
  | cons p t ih =>
    rw [ohlc_apply_cons, List.foldl_cons]
    exact ih _ _ rfl

/-- The first update of a blank OHLC record sets all four fields to the
trade price. -/
theorem ohlc_new_update (p : ℚ) :
    Ohlc.new.update p =
      { «open» := some p, high := some p, low := some p, close := some p } := by
  simp [Ohlc.new, Ohlc.update]

/-- C7: over any nonempty price sequence folded into a blank record,
open is the first price and never changes, high is the running maximum,
low the running minimum, close the last price; a single update keeps a
set open, never decreases a set high, never increases a set low, and
close always becomes the latest price; and all four fields go from unset
to set together on the first update. -/
theorem c7_ohlc_monotonicity (o : Ohlc) (p q hi lo c : ℚ) (ps : List ℚ) :
    (Ohlc.new.apply (p :: ps)).«open» = some p ∧
      (Ohlc.new.apply (p :: ps)).high = some (ps.foldl max p) ∧
      (Ohlc.new.apply (p :: ps)).low = some (ps.foldl min p) ∧
      (Ohlc.new.apply (p :: ps)).close = some (ps.foldl (fun _ x => x) p) ∧
      (o.«open» = some q → (o.update p).«open» = some q) ∧
      (o.high = some hi → ∃ h2, (o.update p).high = some h2 ∧ hi ≤ h2) ∧
      (o.low = some lo → ∃ l2, (o.update p).low = some l2 ∧ l2 ≤ lo) ∧
      (o.close = some c → (o.update p).close = some p) ∧
      Ohlc.new.get = (none, none, none, none) ∧
      (Ohlc.new.update p).get = (some p, some p, some p, some p) := by
  refine ⟨?_, ?_, ?_, ?_, ohlc_update_open_of_some o p q, ?_, ?_, fun _ => rfl, rfl, ?_⟩
  · rw [ohlc_apply_cons, ohlc_new_update]
    exact ohlc_apply_open_of_some ps _ p rfl
  · rw [ohlc_apply_cons, ohlc_new_update]
    exact ohlc_apply_high_of_some ps _ p rfl
  · rw [ohlc_apply_cons, ohlc_new_update]
    exact ohlc_apply_low_of_some ps _ p rfl
  · rw [ohlc_apply_cons, ohlc_new_update]
    exact ohlc_apply_close_of_some ps _ p rfl
  · intro hh
    exact ⟨max hi p, by simp [Ohlc.update, hh], le_max_left hi p⟩
  · intro hl
    exact ⟨min lo p, by simp [Ohlc.update, hl], min_le_left lo p⟩
  · rw [ohlc_new_update]
    rfl

/-- Witness for C7 on the price sequence of the test test_ohlc_update:
150, 155, 145, 148 give OHLC (150, 155, 145, 148), and a later update
preserves a set open and never lowers a set high. -/
theorem c7_witness :
    (Ohlc.new.apply [150, 155, 145, 148]).«open» = some 150 ∧
      (Ohlc.new.apply [150, 155, 145, 148]).high = some 155 ∧
      (Ohlc.new.apply [150, 155, 145, 148]).low = some 145 ∧
      (Ohlc.new.apply [150, 155, 145, 148]).close = some 148 ∧
      ((Ohlc.new.update 150).update 155).«open» = some 150 ∧
      (∃ h2, ((Ohlc.new.update 150).update 155).high = some h2 ∧ 150 ≤ h2) := by
  have h1 := c7_ohlc_monotonicity Ohlc.new 150 0 0 0 0 [155, 145, 148]
  have h2 := c7_ohlc_monotonicity (Ohlc.new.update 150) 155 150 150 150 150 [155, 145, 148]
  refine ⟨h1.1, ?_, ?_, ?_, h2.2.2.2.2.1 (by rw [ohlc_new_update]), h2.2.2.2.2.2.1 (by rw [ohlc_new_update])⟩
  · rw [h1.2.1]
    norm_num [List.foldl, max_def]
  · rw [h1.2.2.1]
    norm_num [List.foldl, min_def]
  · rw [h1.2.2.2.1]
    simp [List.foldl]

/-- Strong buy order implies the sort comparator. -/
theorem sbuy_to_buyLe (a b : Order) (h : SBuy a b) : buyLe a b := by
  rcases h with h | ⟨h, _⟩ <;> unfold buyLe <;> omega

/-- Strong sell order implies the sort comparator. -/
theorem ssell_to_sellLe (a b : Order) (h : SSell a b) : sellLe a b := by
  rcases h with h | ⟨h, _⟩ <;> unfold sellLe <;> omega

/-- Strong buy order implies the tie discipline. -/
theorem sbuy_to_tieok (a b : Order) (h : SBuy a b) : TieOk a b := by
  rcases h with h | ⟨h, h2⟩ <;> intro he <;> omega

/-- Strong sell order implies the tie discipline. -/
theorem ssell_to_tieok (a b : Order) (h : SSell a b) : TieOk a b := by
  rcases h with h | ⟨h, h2⟩ <;> intro he <;> omega

/-- Inserting a tie-respecting order keeps the buy queue strongly
sorted. -/
theorem orderedInsert_sbuy (x : Order) (s : List Order) (hs : s.Pairwise SBuy)
    (ht : ∀ y ∈ s, TieOk x y) : (s.orderedInsert buyLe x).Pairwise SBuy := by
  induction s with
  | nil => simp [List.orderedInsert]
  | cons b t ih =>
    rcases List.pairwise_cons.mp hs with ⟨hbt, hts⟩
    rw [List.orderedInsert]
    by_cases hle : buyLe x b
    · rw [if_pos hle]
      have hlepr : b.price ≤ x.price := hle
      refine List.pairwise_cons.mpr ⟨?_, hs⟩
      intro z hz
      rcases List.mem_cons.mp hz with rfl | hz
      · rcases Nat.lt_or_ge z.price x.price with hlt | hge
        · exact Or.inl hlt
        · exact Or.inr ⟨by omega, ht z (List.mem_cons_self z t) (by omega)⟩
      · have hbz := hbt z hz
        rcases Nat.lt_or_ge b.price x.price with hlt | hge
        · rcases hbz with h1 | ⟨h1, _⟩ <;> exact Or.inl (by omega)
        · rcases hbz with h1 | ⟨h1, h2⟩
          · exact Or.inl (by omega)
          · exact Or.inr ⟨by omega, ht z (List.mem_cons_of_mem b hz) (by omega)⟩
    · rw [if_neg hle]
      have hgt : x.price < b.price := by
        unfold buyLe at hle
        omega
      refine List.pairwise_cons.mpr ⟨?_, ih hts (fun y hy => ht y (List.mem_cons_of_mem b hy))⟩
      intro z hz
      rcases (List.mem_orderedInsert buyLe).mp hz with rfl | hz
      · exact Or.inl hgt
      · exact hbt z hz

/-- Inserting a tie-respecting order keeps the sell queue strongly
sorted. -/
theorem orderedInsert_ssell (x : Order) (s : List Order) (hs : s.Pairwise SSell)
    (ht : ∀ y ∈ s, TieOk x y) : (s.orderedInsert sellLe x).Pairwise SSell := by
  induction s with
  | nil => simp [List.orderedInsert]
  | cons b t ih =>
    rcases List.pairwise_cons.mp hs with ⟨hbt, hts⟩
    rw [List.orderedInsert]
    by_cases hle : sellLe x b
    · rw [if_pos hle]
      have hlepr : x.price ≤ b.price := hle
      refine List.pairwise_cons.mpr ⟨?_, hs⟩
      intro z hz
      rcases List.mem_cons.mp hz with rfl | hz
      · rcases Nat.lt_or_ge x.price z.price with hlt | hge
        · exact Or.inl hlt
        · exact Or.inr ⟨by omega, ht z (List.mem_cons_self z t) (by omega)⟩
      · have hbz := hbt z hz
        rcases Nat.lt_or_ge x.price b.price with hlt | hge
        · rcases hbz with h1 | ⟨h1, _⟩ <;> exact Or.inl (by omega)
        · rcases hbz with h1 | ⟨h1, h2⟩
          · exact Or.inl (by omega)
          · exact Or.inr ⟨by omega, ht z (List.mem_cons_of_mem b hz) (by omega)⟩
    · rw [if_neg hle]
      have hgt : b.price < x.price := by
        unfold sellLe at hle
        omega
      refine List.pairwise_cons.mpr ⟨?_, ih hts (fun y hy => ht y (List.mem_cons_of_mem b hy))⟩
      intro z hz
      rcases (List.mem_orderedInsert sellLe).mp hz with rfl | hz
      · exact Or.inl hgt
      · exact hbt z hz

/-- Sorting a tie-disciplined list yields a strongly sorted buy queue:
the stable sort keeps equal prices in submission order. -/
theorem insertionSort_sbuy (l : List Order) (h : l.Pairwise TieOk) :
    (l.insertionSort buyLe).Pairwise SBuy := by
  induction l with
  | nil => simp
  | cons x t ih =>
    rcases List.pairwise_cons.mp h with ⟨hxt, htt⟩
    rw [List.insertionSort]
    exact orderedInsert_sbuy x _ (ih htt)
      (fun y hy => hxt y ((List.mem_insertionSort buyLe).mp hy))

/-- Sorting a tie-disciplined list yields a strongly sorted sell
queue. -/
theorem insertionSort_ssell (l : List Order) (h : l.Pairwise TieOk) :
    (l.insertionSort sellLe).Pairwise SSell := by
  induction l with
  | nil => simp
  | cons x t ih =>
    rcases List.pairwise_cons.mp h with ⟨hxt, htt⟩
    rw [List.insertionSort]
    exact orderedInsert_ssell x _ (ih htt)
      (fun y hy => hxt y ((List.mem_insertionSort sellLe).mp hy))

/-- The inner loop only rewrites residual quantities: creator, price and
time of the sells (and of the walking buy) are untouched. -/
theorem matchSells_sig (sells : List Order) (buy : Order) (ohlc : Ohlc) :
    (matchSells buy sells ohlc).sells.map Order.sig = sells.map Order.sig ∧
      (matchSells buy sells ohlc).buy.sig = buy.sig := by
  induction sells generalizing buy ohlc with
  | nil => exact ⟨rfl, rfl⟩
  | cons s rest ih =>
    simp only [matchSells]
    by_cases h0 : s.quantity = 0
    · rw [if_pos h0]
      refine ⟨?_, (ih buy ohlc).2⟩
      simp only [List.map_cons, (ih buy ohlc).1]
    · rw [if_neg h0]
      by_cases hp : s.get_price ≤ buy.get_price
      · rw [if_pos hp]
        by_cases hq : (buy.resolve (min buy.quantity s.quantity)).quantity = 0
        · rw [if_pos hq]
          exact ⟨rfl, rfl⟩
        · rw [if_neg hq]
          refine ⟨?_, (ih _ _).2⟩
          simp only [List.map_cons, (ih _ _).1, Order.sig, Order.resolve]
      · rw [if_neg hp]
        exact ⟨rfl, rfl⟩

/-- The outer loop only rewrites residual quantities of both queues. -/
theorem matchBuys_sig (buys : List Order) (sells : List Order) (ohlc : Ohlc) :
    (matchBuys buys sells ohlc).buys.map Order.sig = buys.map Order.sig ∧
      (matchBuys buys sells ohlc).sells.map Order.sig = sells.map Order.sig := by
  induction buys generalizing sells ohlc with
  | nil => cases sells <;> exact ⟨rfl, rfl⟩
  | cons b rest ih =>
    cases sells with
    | nil => exact ⟨rfl, rfl⟩
    | cons s0 stail =>
      simp only [matchBuys]
      by_cases hp : b.get_price < s0.get_price
      · rw [if_pos hp]
        exact ⟨rfl, rfl⟩
      · rw [if_neg hp]
        have hinner := matchSells_sig (s0 :: stail) b ohlc
        have houter := ih (matchSells b (s0 :: stail) ohlc).sells
          (matchSells b (s0 :: stail) ohlc).ohlc
        refine ⟨?_, houter.2.trans hinner.1⟩
        simp only [List.map_cons, houter.1, hinner.2]

/-- Pairwise SBuy transfers along lists with equal sig projections. -/
theorem pairwise_sbuy_of_sig_eq {l l2 : List Order}
    (h : l2.map Order.sig = l.map Order.sig) (hp : l.Pairwise SBuy) : l2.Pairwise SBuy := by
  have h1 : (l.map Order.sig).Pairwise
      (fun u v : ℕ × ℕ × ℕ => v.2.1 < u.2.1 ∨ (u.2.1 = v.2.1 ∧ u.2.2 ≤ v.2.2)) :=
    List.pairwise_map.mpr (hp.imp (fun hab => hab))
  rw [← h] at h1
  exact (List.pairwise_map.mp h1).imp (fun hab => hab)

/-- Pairwise SSell transfers along lists with equal sig projections. -/
theorem pairwise_ssell_of_sig_eq {l l2 : List Order}
    (h : l2.map Order.sig = l.map Order.sig) (hp : l.Pairwise SSell) : l2.Pairwise SSell := by
  have h1 : (l.map Order.sig).Pairwise
      (fun u v : ℕ × ℕ × ℕ => u.2.1 < v.2.1 ∨ (u.2.1 = v.2.1 ∧ u.2.2 ≤ v.2.2)) :=
    List.pairwise_map.mpr (hp.imp (fun hab => hab))
  rw [← h] at h1
  exact (List.pairwise_map.mp h1).imp (fun hab => hab)

/-- C6 amended: for an added order of positive quantity whose timestamp
is no earlier than every resting order, add_buy_order and
add_sell_order preserve book well-formedness, and Stock::resolve
preserves it; well-formedness means buys strictly descending by price
with equal prices in ascending submission order, sells ascending
likewise, and no retained order of quantity zero. -/
theorem c6_wf_preserved (st : Stock) (o : Order) (hwf : st.WF) (hq : 0 < o.quantity)
    (hbt : ∀ x ∈ st.buy_orders, x.time ≤ o.time)
    (hst : ∀ x ∈ st.sell_orders, x.time ≤ o.time) :
    (st.add_buy_order o).WF ∧ (st.add_sell_order o).WF ∧ st.resolve.1.WF := by
  obtain ⟨hb, hs, hbq, hsq⟩ := hwf
  have hbtie : st.buy_orders.Pairwise TieOk := hb.imp (fun h => sbuy_to_tieok _ _ h)
  have hstie : st.sell_orders.Pairwise TieOk := hs.imp (fun h => ssell_to_tieok _ _ h)
  have hbsorted : st.buy_orders.Sorted buyLe := hb.imp (fun h => sbuy_to_buyLe _ _ h)
  have hssorted : st.sell_orders.Sorted sellLe := hs.imp (fun h => ssell_to_sellLe _ _ h)
  have hbtie2 : (st.buy_orders ++ [o]).Pairwise TieOk := by
    rw [List.pairwise_append]
    exact ⟨hbtie, List.pairwise_singleton _ _,
      fun a ha y hy => by rw [List.mem_singleton] at hy; subst hy; exact fun _ => hbt a ha⟩
  have hstie2 : (st.sell_orders ++ [o]).Pairwise TieOk := by
    rw [List.pairwise_append]
    exact ⟨hstie, List.pairwise_singleton _ _,
      fun a ha y hy => by rw [List.mem_singleton] at hy; subst hy; exact fun _ => hst a ha⟩
  refine ⟨⟨?_, ?_, ?_, ?_⟩, ⟨?_, ?_, ?_, ?_⟩, ⟨?_, ?_, ?_, ?_⟩⟩
  · exact insertionSort_sbuy _ hbtie2
  · rw [Stock.add_buy_order, Stock.sort_orders]
    simp only [hssorted.insertionSort_eq]
    exact hs
  · intro x hx
    rcases List.mem_append.mp ((List.mem_insertionSort buyLe).mp hx) with hx | hx
    · exact hbq x hx
    · rw [List.mem_singleton] at hx
      subst hx
      exact hq
  · rw [Stock.add_buy_order, Stock.sort_orders]
    simp only [hssorted.insertionSort_eq]
    exact hsq
  · rw [Stock.add_sell_order, Stock.sort_orders]
    simp only [hbsorted.insertionSort_eq]
    exact hb
  · exact insertionSort_ssell _ hstie2
  · rw [Stock.add_sell_order, Stock.sort_orders]
    simp only [hbsorted.insertionSort_eq]
    exact hbq
  · intro x hx
    rcases List.mem_append.mp ((List.mem_insertionSort sellLe).mp hx) with hx | hx
    · exact hsq x hx
    · rw [List.mem_singleton] at hx
      subst hx
      exact hq
  · exact (pairwise_sbuy_of_sig_eq
      (matchBuys_sig st.buy_orders st.sell_orders st.ohlc).1 hb).sublist
      (List.filter_sublist _)
  · exact (pairwise_ssell_of_sig_eq
      (matchBuys_sig st.buy_orders st.sell_orders st.ohlc).2 hs).sublist
      (List.filter_sublist _)
  · intro x hx
    exact of_decide_eq_true (List.mem_filter.mp hx).2
  · intro x hx
    exact of_decide_eq_true (List.mem_filter.mp hx).2

/-- C6 counterexample: adding a quantity-zero buy order retains a spent
order in the book, refuting the no-spent-orders part of the claim as
stated right after a public mutation. -/
theorem c6_counterexample :
    ∃ x ∈ ((Stock.new "A" "A").add_buy_order
        { creator_id := 1, price := 100, quantity := 0, time := 0 }).buy_orders,
      x.quantity = 0 := by
  refine ⟨{ creator_id := 1, price := 100, quantity := 0, time := 0 }, ?_, rfl⟩
  simp [Stock.new, Stock.add_buy_order, Stock.sort_orders, List.insertionSort,
    List.orderedInsert]

/-- Witness for C6: adding a positive-quantity order with a fresh
timestamp to the empty book keeps it well formed, and so does resolve. -/
theorem c6_witness :
    ((Stock.new "A" "A").add_buy_order
        { creator_id := 1, price := 100, quantity := 2, time := 0 }).WF ∧
      ((Stock.new "A" "A").add_sell_order
        { creator_id := 1, price := 100, quantity := 2, time := 0 }).WF ∧
      (Stock.new "A" "A").resolve.1.WF :=
  c6_wf_preserved (Stock.new "A" "A")
    { creator_id := 1, price := 100, quantity := 2, time := 0 }
    (by simp [Stock.WF, Stock.new]) (by norm_num)
    (by simp [Stock.new]) (by simp [Stock.new])

/-- A lookup that misses is exactly a key outside the association
list. -/
theorem alistGet?_eq_none_iff (k : ℕ) (l : List (ℕ × ℕ)) :
    alistGet? k l = none ↔ k ∉ keysOf l := by
  induction l with
  | nil => simp [alistGet?, keysOf]
  | cons e t ih =>
    by_cases he : e.1 = k
    · simp [alistGet?, he, keysOf]
    · simp only [alistGet?, if_neg he, keysOf, List.map_cons, List.mem_cons]
      rw [ih]
      constructor
      · intro h hm
        rcases hm with hm | hm
        · exact he hm.symm
        · exact h hm
      · intro h hm
        exact h (Or.inr hm)

/-- A hit lookup produces a key of the association list. -/
theorem mem_keys_of_alistGet?_some {k v : ℕ} {l : List (ℕ × ℕ)}
    (h : alistGet? k l = some v) : k ∈ keysOf l := by
  by_contra hm
  rw [← alistGet?_eq_none_iff] at hm
  rw [hm] at h
  exact Option.noConfusion h

/-- A key of the association list has a hit lookup. -/
theorem alistGet?_some_of_mem_keys {k : ℕ} {l : List (ℕ × ℕ)}
    (h : k ∈ keysOf l) : ∃ v, alistGet? k l = some v := by
  rcases ho : alistGet? k l with _ | v
  · exact absurd ((alistGet?_eq_none_iff k l).mp ho) (by simp [h])
  · exact ⟨v, rfl⟩

/-- Looking up the inserted key finds the inserted value. -/
theorem alistGet?_insert_self (k v : ℕ) (l : List (ℕ × ℕ)) :
    alistGet? k (alistInsert k v l) = some v := by
  induction l with
  | nil => simp [alistInsert, alistGet?]
  | cons e t ih =>
    by_cases he : e.1 = k
    · simp [alistInsert, he, alistGet?]
    · simp [alistInsert, he, alistGet?, ih]

/-- Looking up another key is unaffected by an insert. -/
theorem alistGet?_insert_ne (k v p : ℕ) (l : List (ℕ × ℕ)) (h : p ≠ k) :
    alistGet? p (alistInsert k v l) = alistGet? p l := by
  induction l with
  | nil =>
    simp only [alistInsert, alistGet?]
    rw [if_neg (fun hc : k = p => h hc.symm)]
  | cons e t ih =>
    by_cases he : e.1 = k
    · simp only [alistInsert, if_pos he, alistGet?]
      rw [if_neg (fun hc : k = p => h hc.symm), if_neg (fun hc : e.1 = p => h (hc.symm.trans he))]
    · simp [alistInsert, he, alistGet?, ih]

/-- Key list of a cons. -/
theorem keysOf_cons (e : ℕ × ℕ) (l : List (ℕ × ℕ)) : keysOf (e :: l) = e.1 :: keysOf l := rfl

/-- Inserting a present key leaves the key list unchanged. -/
theorem keysOf_insert_mem (k v : ℕ) (l : List (ℕ × ℕ)) (h : k ∈ keysOf l) :
    keysOf (alistInsert k v l) = keysOf l := by
  induction l with
  | nil => simp [keysOf] at h
  | cons e t ih =>
    by_cases he : e.1 = k
    · simp [alistInsert, he, keysOf]
    · have ht : k ∈ keysOf t := by
        rw [keysOf_cons, List.mem_cons] at h
        rcases h with h | h
        · exact absurd h.symm he
        · exact h
      rw [alistInsert, if_neg he, keysOf_cons, keysOf_cons, ih ht]

/-- Inserting a fresh key appends it to the key list. -/
theorem keysOf_insert_not_mem (k v : ℕ) (l : List (ℕ × ℕ)) (h : k ∉ keysOf l) :
    keysOf (alistInsert k v l) = keysOf l ++ [k] := by
  induction l with
  | nil => simp [alistInsert, keysOf]
  | cons e t ih =>
    have he : ¬ e.1 = k := fun hc =>
      h (by rw [keysOf_cons, hc]; exact List.mem_cons_self _ _)
    have ht : k ∉ keysOf t := fun hc =>
      h (by rw [keysOf_cons]; exact List.mem_cons_of_mem _ hc)
    rw [alistInsert, if_neg he, keysOf_cons, keysOf_cons, ih ht, List.cons_append]

/-- Inserting never breaks distinctness of the keys. -/
theorem keysOf_insert_nodup (k v : ℕ) (l : List (ℕ × ℕ)) (h : (keysOf l).Nodup) :
    (keysOf (alistInsert k v l)).Nodup := by
  by_cases hm : k ∈ keysOf l
  · rw [keysOf_insert_mem k v l hm]
    exact h
  · rw [keysOf_insert_not_mem k v l hm]
    simp [List.nodup_append, h, hm]

/-- The keys produced by the aggregation loop come from the accumulator
or from prices of the scanned orders. -/
theorem buildPricelist_keys_subset (l : List Order) :
    ∀ (acc : List (ℕ × ℕ)) (p : ℕ), p ∈ keysOf (buildPricelist l acc) →
      p ∈ keysOf acc ∨ ∃ x ∈ l, x.price = p := by
  induction l with
  | nil =>
    intro acc p h
    rw [buildPricelist] at h
    exact Or.inl h
  | cons o rest ih =>
    intro acc p h
    rw [buildPricelist] at h
    rcases hcase : alistGet? o.price acc with _ | q
    · rw [hcase] at h
      by_cases hlen : NO_OF_PRICES_QUERIED ≤ acc.length
      · rw [if_pos hlen] at h
        exact Or.inl h
      · rw [if_neg hlen] at h
        rcases ih _ p h with hin | ⟨x, hx, hxp⟩
        · rw [keysOf_insert_not_mem _ _ _ ((alistGet?_eq_none_iff _ _).mp hcase)] at hin
          rcases List.mem_append.mp hin with hin | hin
          · exact Or.inl hin
          · rw [List.mem_singleton] at hin
            exact Or.inr ⟨o, List.mem_cons_self o rest, hin.symm⟩
        · exact Or.inr ⟨x, List.mem_cons_of_mem o hx, hxp⟩
    · rw [hcase] at h
      rcases ih _ p h with hin | ⟨x, hx, hxp⟩
      · rw [keysOf_insert_mem _ _ _ (mem_keys_of_alistGet?_some hcase)] at hin
        exact Or.inl hin
      · exact Or.inr ⟨x, List.mem_cons_of_mem o hx, hxp⟩

/-- The aggregation loop keeps the keys distinct. -/
theorem buildPricelist_keys_nodup (l : List Order) :
    ∀ (acc : List (ℕ × ℕ)), (keysOf acc).Nodup → (keysOf (buildPricelist l acc)).Nodup := by
  induction l with
  | nil =>
    intro acc h
    rw [buildPricelist]
    exact h
  | cons o rest ih =>
    intro acc h
    rw [buildPricelist]
    rcases hcase : alistGet? o.price acc with _ | q
    · by_cases hlen : NO_OF_PRICES_QUERIED ≤ acc.length
      · rw [if_pos hlen]
        exact h
      · rw [if_neg hlen]
        exact ih _ (keysOf_insert_nodup _ _ _ h)
    · exact ih _ (keysOf_insert_nodup _ _ _ h)

/-- Residual quantity at a price, one order at a time. -/
theorem sumQty_cons (o : Order) (l : List Order) (p : ℕ) :
    sumQty (o :: l) p = (if o.price = p then o.quantity else 0) + sumQty l p := by
  by_cases h : o.price = p
  · simp [sumQty, List.filter_cons, h]
  · simp [sumQty, List.filter_cons, h]

/-- Residual quantity at a price is invariant under permutation. -/
theorem sumQty_perm {l1 l2 : List Order} (h : l1.Perm l2) (p : ℕ) :
    sumQty l1 p = sumQty l2 p := by
  unfold sumQty
  exact ((h.filter _).map _).sum_eq

/-- Residual quantity vanishes at a price held by no order. -/
theorem sumQty_eq_zero {l : List Order} {p : ℕ} (h : ∀ x ∈ l, x.price ≠ p) :
    sumQty l p = 0 := by
  unfold sumQty
  rw [List.filter_eq_nil_iff.mpr (fun a ha => by simpa using h a ha)]
  rfl

/-- Appending one order adds its quantity at its own price level. -/
theorem sumQty_append_single (l : List Order) (o : Order) :
    sumQty (l ++ [o]) p = sumQty l p + (if o.price = p then o.quantity else 0) := by
  induction l with
  | nil =>
    rw [List.nil_append, sumQty_cons]
    simp [sumQty]
  | cons x t ih =>
    rw [List.cons_append, sumQty_cons, sumQty_cons, ih]
    omega

/-- Core property of the aggregation loop on a sorted order list: every
key the loop reports carries the accumulator value plus the full
residual quantity of that price in the scanned list. R is the price
order of the scan direction (descending for buys, ascending for
sells). -/
theorem buildPricelist_lookup_sum (R : ℕ → ℕ → Prop)
    (hanti : ∀ a b, R a b → R b a → a = b)
    (l : List Order) :
    ∀ (acc : List (ℕ × ℕ)),
      l.Pairwise (fun a b => R b.price a.price) →
      (keysOf acc).Nodup →
      (∀ k ∈ keysOf acc, ∀ x ∈ l, R x.price k) →
      ∀ p v, alistGet? p (buildPricelist l acc) = some v →
        v = (alistGet? p acc).getD 0 + sumQty l p := by
  induction l with
  | nil =>
    intro acc _ _ _ p v hv
    rw [buildPricelist] at hv
    rw [hv]
    simp [sumQty]
  | cons o rest ih =>
    intro acc hsorted hnd hK p v hv
    rcases List.pairwise_cons.mp hsorted with ⟨hhead, htail⟩
    rw [buildPricelist] at hv
    rcases hcase : alistGet? o.price acc with _ | q
    · rw [hcase] at hv
      have homem : o.price ∉ keysOf acc := (alistGet?_eq_none_iff _ _).mp hcase
      by_cases hlen : NO_OF_PRICES_QUERIED ≤ acc.length
      · rw [if_pos hlen] at hv
        have hpmem : p ∈ keysOf acc := mem_keys_of_alistGet?_some hv
        have hop : R o.price p := hK p hpmem o (List.mem_cons_self o rest)
        have hone : o.price ≠ p := fun hc => homem (hc ▸ hpmem)
        have hzero : sumQty (o :: rest) p = 0 := by
          apply sumQty_eq_zero
          intro x hx
          rcases List.mem_cons.mp hx with rfl | hx
          · exact hone
          · intro hc
            have hxo : R x.price o.price := hhead x hx
            have h1 : R p o.price := hc ▸ hxo
            exact hone (hanti _ _ hop h1)
        rw [hv, hzero]
        simp
      · rw [if_neg hlen] at hv
        have hnd2 : (keysOf (alistInsert o.price o.quantity acc)).Nodup :=
          keysOf_insert_nodup _ _ _ hnd
        have hK2 : ∀ k ∈ keysOf (alistInsert o.price o.quantity acc), ∀ x ∈ rest, R x.price k := by
          intro k hk x hx
          rw [keysOf_insert_not_mem _ _ _ homem] at hk
          rcases List.mem_append.mp hk with hk | hk
          · exact hK k hk x (List.mem_cons_of_mem o hx)
          · rw [List.mem_singleton] at hk
            exact hk ▸ hhead x hx
        have hrec := ih _ htail hnd2 hK2 p v hv
        by_cases hp : p = o.price
        · subst hp
          rw [alistGet?_insert_self] at hrec
          rw [hcase, sumQty_cons, if_pos rfl]
          simp at hrec ⊢
          omega
        · rw [alistGet?_insert_ne _ _ _ _ (fun hc => hp hc)] at hrec
          rw [sumQty_cons, if_neg (fun hc => hp hc.symm)]
          omega
    · rw [hcase] at hv
      have homem : o.price ∈ keysOf acc := mem_keys_of_alistGet?_some hcase
      have hnd2 : (keysOf (alistInsert o.price (q + o.quantity) acc)).Nodup :=
        keysOf_insert_nodup _ _ _ hnd
      have hK2 : ∀ k ∈ keysOf (alistInsert o.price (q + o.quantity) acc),
          ∀ x ∈ rest, R x.price k := by
        intro k hk x hx
        rw [keysOf_insert_mem _ _ _ homem] at hk
        exact hK k hk x (List.mem_cons_of_mem o hx)
      have hrec := ih _ htail hnd2 hK2 p v hv
      by_cases hp : p = o.price
      · subst hp
        rw [alistGet?_insert_self] at hrec
        rw [hcase, sumQty_cons, if_pos rfl]
        simp at hrec ⊢
        omega
      · rw [alistGet?_insert_ne _ _ _ _ (fun hc => hp hc)] at hrec
        rw [sumQty_cons, if_neg (fun hc => hp hc.symm)]
        omega

/-- Division by the precision factor is injective on stored prices. -/
theorem price_div_inj (a b : ℕ) :
    (a : ℚ) / PRICE_PRECISION_FACTOR = (b : ℚ) / PRICE_PRECISION_FACTOR ↔ a = b := by
  unfold PRICE_PRECISION_FACTOR
  rw [div_eq_div_iff (by norm_num) (by norm_num)]
  constructor
  · intro h
    have h2 : (a : ℚ) = (b : ℚ) :=
      mul_right_cancel₀ (by norm_num : (100 : ℚ) ≠ 0) h
    exact_mod_cast h2
  · intro h
    rw [h]

/-- Displayed level quantity of a mapped association list is the
association list value. -/
theorem levelQty_map_div (l : List (ℕ × ℕ)) (p : ℕ) :
    levelQty (l.map toDepthEntry) ((p : ℚ) / PRICE_PRECISION_FACTOR) =
      (alistGet? p l).getD 0 := by
  induction l with
  | nil => rfl
  | cons e t ih =>
    rw [List.map_cons, levelQty, alistGet?]
    simp only [toDepthEntry]
    by_cases he : e.1 = p
    · rw [if_pos ((price_div_inj e.1 p).mpr he), if_pos he]
      rfl
    · rw [if_neg (fun hc => he ((price_div_inj e.1 p).mp hc)), if_neg he]
      exact ih

/-- Membership of a displayed level in a mapped association list. -/
theorem mem_map_div_iff (l : List (ℕ × ℕ)) (p : ℕ) :
    ((p : ℚ) / PRICE_PRECISION_FACTOR) ∈ (l.map toDepthEntry).map Prod.fst ↔
      p ∈ keysOf l := by
  simp only [List.map_map, List.mem_map, keysOf, Function.comp, toDepthEntry]
  constructor
  · intro ⟨kv, hkv, he⟩
    exact ⟨kv, hkv, (price_div_inj kv.1 p).mp he⟩
  · intro ⟨kv, hkv, he⟩
    exact ⟨kv, hkv, by rw [he]⟩

/-- On distinct keys, the displayed quantity at a level is invariant
under permutation of the listing. -/
theorem levelQty_perm {l1 l2 : List (ℚ × ℕ)} (h : l1.Perm l2) :
    (l1.map Prod.fst).Nodup → ∀ p, levelQty l1 p = levelQty l2 p := by
  induction h with
  | nil => exact fun _ _ => rfl
  | cons x h2 ih =>
    intro hnd p
    rw [levelQty, levelQty]
    by_cases hx : x.1 = p
    · rw [if_pos hx, if_pos hx]
    · rw [if_neg hx, if_neg hx]
      exact ih (by simpa using (List.nodup_cons.mp (by simpa using hnd)).2) p
  | swap x y l =>
    intro hnd p
    have hxy : y.1 ≠ x.1 := by
      simp only [List.map_cons, List.nodup_cons, List.mem_cons] at hnd
      exact fun hc => hnd.1 (Or.inl hc)
    rw [levelQty, levelQty, levelQty, levelQty]
    by_cases hy : y.1 = p
    · rw [if_pos hy, if_neg (fun hc => hxy (hy.trans hc.symm))]
      rw [if_pos hy]
    · rw [if_neg hy]
      by_cases hx2 : x.1 = p
      · rw [if_pos hx2, if_pos hx2]
      · rw [if_neg hx2, if_neg hx2, if_neg hy]
  | trans h1 h2 ih1 ih2 =>
    intro hnd p
    exact (ih1 hnd p).trans (ih2 (((h1.map Prod.fst).nodup_iff).mp hnd) p)

/-- The displayed keys of an aggregated listing are distinct. -/
theorem depth_map_nodup (l : List Order) :
    (((buildPricelist l []).map toDepthEntry).map Prod.fst).Nodup := by
  rw [List.map_map]
  have hcomp : (Prod.fst ∘ toDepthEntry) =
      (fun k : ℕ => (k : ℚ) / PRICE_PRECISION_FACTOR) ∘ Prod.fst := rfl
  rw [hcomp, ← List.map_map]
  refine List.Nodup.map ?_ (buildPricelist_keys_nodup l [] (by simp [keysOf]))
  intro a b hab
  exact (price_div_inj a b).mp hab

/-- Sorting the listing does not change the displayed quantity at any
level. -/
theorem depth_levelQty (r : ℚ × ℕ → ℚ × ℕ → Prop) [DecidableRel r] (l : List Order) (p : ℕ) :
    levelQty (((buildPricelist l []).map toDepthEntry).insertionSort r)
      ((p : ℚ) / PRICE_PRECISION_FACTOR) = (alistGet? p (buildPricelist l [])).getD 0 := by
  have hperm := List.perm_insertionSort r ((buildPricelist l []).map toDepthEntry)
  rw [levelQty_perm hperm (((hperm.map Prod.fst).nodup_iff).mpr (depth_map_nodup l)) _]
  exact levelQty_map_div _ p

/-- Sorting the listing does not change which levels are displayed. -/
theorem depth_mem (r : ℚ × ℕ → ℚ × ℕ → Prop) [DecidableRel r] (l : List Order) (p : ℕ) :
    ((p : ℚ) / PRICE_PRECISION_FACTOR) ∈
        ((((buildPricelist l []).map toDepthEntry).insertionSort r).map Prod.fst) ↔
      p ∈ keysOf (buildPricelist l []) := by
  rw [((List.perm_insertionSort r _).map Prod.fst).mem_iff]
  exact mem_map_div_iff _ p

/-- The buy queue after add_buy_order. -/
theorem add_buy_order_buys (st : Stock) (o : Order) :
    (st.add_buy_order o).buy_orders = (st.buy_orders ++ [o]).insertionSort buyLe := rfl

/-- The sell queue after add_sell_order. -/
theorem add_sell_order_sells (st : Stock) (o : Order) :
    (st.add_sell_order o).sell_orders = (st.sell_orders ++ [o]).insertionSort sellLe := rfl

/-- Value displayed at a buy depth level of a book. -/
theorem stock_buy_depth_levelQty (st : Stock) (p : ℕ) :
    levelQty st.get_buy_orders ((p : ℚ) / PRICE_PRECISION_FACTOR) =
      (alistGet? p (buildPricelist st.buy_orders [])).getD 0 :=
  depth_levelQty depthDesc st.buy_orders p

/-- Which buy depth levels of a book are displayed. -/
theorem stock_buy_depth_mem (st : Stock) (p : ℕ) :
    ((p : ℚ) / PRICE_PRECISION_FACTOR) ∈ st.get_buy_orders.map Prod.fst ↔
      p ∈ keysOf (buildPricelist st.buy_orders []) :=
  depth_mem depthDesc st.buy_orders p

/-- Value displayed at a sell depth level of a book. -/
theorem stock_sell_depth_levelQty (st : Stock) (p : ℕ) :
    levelQty st.get_sell_orders ((p : ℚ) / PRICE_PRECISION_FACTOR) =
      (alistGet? p (buildPricelist st.sell_orders [])).getD 0 :=
  depth_levelQty depthAsc st.sell_orders p

/-- Which sell depth levels of a book are displayed. -/
theorem stock_sell_depth_mem (st : Stock) (p : ℕ) :
    ((p : ℚ) / PRICE_PRECISION_FACTOR) ∈ st.get_sell_orders.map Prod.fst ↔
      p ∈ keysOf (buildPricelist st.sell_orders []) :=
  depth_mem depthAsc st.sell_orders p

/-- C8 amended: for a price-sorted book, adding an order and querying
the corresponding depth shows, at the added order price level, exactly
the old displayed quantity (0 when the level was not displayed) plus the
order quantity, provided the level is displayed after the add and was
either displayed before the add or entirely new to the book. Without the
display proviso the claim fails: the depth shows at most
NO_OF_PRICES_QUERIED price levels. -/
theorem c8_depth_after_add (st : Stock) (o : Order) :
    (st.buy_orders.Pairwise buyLe →
      o.get_price ∈ (st.add_buy_order o).get_buy_orders.map Prod.fst →
      (o.get_price ∈ st.get_buy_orders.map Prod.fst ∨
        o.price ∉ st.buy_orders.map Order.price) →
      levelQty ((st.add_buy_order o).get_buy_orders) o.get_price =
        levelQty st.get_buy_orders o.get_price + o.quantity) ∧
    (st.sell_orders.Pairwise sellLe →
      o.get_price ∈ (st.add_sell_order o).get_sell_orders.map Prod.fst →
      (o.get_price ∈ st.get_sell_orders.map Prod.fst ∨
        o.price ∉ st.sell_orders.map Order.price) →
      levelQty ((st.add_sell_order o).get_sell_orders) o.get_price =
        levelQty st.get_sell_orders o.get_price + o.quantity) := by
  constructor
  · intro hsorted hmem hpre
    simp only [Order.get_price] at hmem hpre ⊢
    have hm2 := (stock_buy_depth_mem (st.add_buy_order o) o.price).mp hmem
    rw [add_buy_order_buys] at hm2
    obtain ⟨v, hv⟩ := alistGet?_some_of_mem_keys hm2
    have hsorted2 : ((st.buy_orders ++ [o]).insertionSort buyLe).Pairwise
        (fun a b : Order => b.price ≤ a.price) :=
      List.sorted_insertionSort buyLe (st.buy_orders ++ [o])
    have hval := buildPricelist_lookup_sum (fun a b => a ≤ b)
      (fun a b h1 h2 => Nat.le_antisymm h1 h2)
      _ [] hsorted2 (by simp [keysOf]) (by simp [keysOf]) o.price v hv
    have hsum2 : sumQty ((st.buy_orders ++ [o]).insertionSort buyLe) o.price =
        sumQty st.buy_orders o.price + o.quantity := by
      rw [sumQty_perm (List.perm_insertionSort buyLe _) o.price, sumQty_append_single]
      simp
    have hpost : levelQty ((st.add_buy_order o).get_buy_orders)
        ((o.price : ℚ) / PRICE_PRECISION_FACTOR) = v := by
      rw [stock_buy_depth_levelQty, add_buy_order_buys, hv]
      rfl
    rw [hpost, stock_buy_depth_levelQty]
    simp only [alistGet?, Option.getD_none] at hval
    rcases hpre with hpre | hpre
    · obtain ⟨v0, hv0⟩ := alistGet?_some_of_mem_keys ((stock_buy_depth_mem st o.price).mp hpre)
      have hval0 := buildPricelist_lookup_sum (fun a b => a ≤ b)
        (fun a b h1 h2 => Nat.le_antisymm h1 h2)
        st.buy_orders [] hsorted (by simp [keysOf]) (by simp [keysOf]) o.price v0 hv0
      simp only [alistGet?, Option.getD_none] at hval0
      rw [hv0]
      simp only [Option.getD_some]
      omega
    · have hnone : alistGet? o.price (buildPricelist st.buy_orders []) = none := by
        rcases hcase : alistGet? o.price (buildPricelist st.buy_orders []) with _ | w
        · rfl
        · exfalso
          rcases buildPricelist_keys_subset st.buy_orders [] o.price
              (mem_keys_of_alistGet?_some hcase) with hin | ⟨x, hx, hxp⟩
          · simp [keysOf] at hin
          · exact hpre (List.mem_map.mpr ⟨x, hx, hxp⟩)
      have hz : sumQty st.buy_orders o.price = 0 :=
        sumQty_eq_zero (fun x hx hc => hpre (List.mem_map.mpr ⟨x, hx, hc⟩))
      rw [hnone]
      simp only [Option.getD_none]
      omega
  · intro hsorted hmem hpre
    simp only [Order.get_price] at hmem hpre ⊢
    have hm2 := (stock_sell_depth_mem (st.add_sell_order o) o.price).mp hmem
    rw [add_sell_order_sells] at hm2
    obtain ⟨v, hv⟩ := alistGet?_some_of_mem_keys hm2
    have hsorted2 : ((st.sell_orders ++ [o]).insertionSort sellLe).Pairwise
        (fun a b : Order => a.price ≤ b.price) :=
      List.sorted_insertionSort sellLe (st.sell_orders ++ [o])
    have hval := buildPricelist_lookup_sum (fun a b => b ≤ a)
      (fun a b h1 h2 => Nat.le_antisymm h2 h1)
      _ [] hsorted2 (by simp [keysOf]) (by simp [keysOf]) o.price v hv
    have hsum2 : sumQty ((st.sell_orders ++ [o]).insertionSort sellLe) o.price =
        sumQty st.sell_orders o.price + o.quantity := by
      rw [sumQty_perm (List.perm_insertionSort sellLe _) o.price, sumQty_append_single]
      simp
    have hpost : levelQty ((st.add_sell_order o).get_sell_orders)
        ((o.price : ℚ) / PRICE_PRECISION_FACTOR) = v := by
      rw [stock_sell_depth_levelQty, add_sell_order_sells, hv]
      rfl
    rw [hpost, stock_sell_depth_levelQty]
    simp only [alistGet?, Option.getD_none] at hval
    rcases hpre with hpre | hpre
    · obtain ⟨v0, hv0⟩ := alistGet?_some_of_mem_keys ((stock_sell_depth_mem st o.price).mp hpre)
      have hval0 := buildPricelist_lookup_sum (fun a b => b ≤ a)
        (fun a b h1 h2 => Nat.le_antisymm h2 h1)
        st.sell_orders [] hsorted (by simp [keysOf]) (by simp [keysOf]) o.price v0 hv0
      simp only [alistGet?, Option.getD_none] at hval0
      rw [hv0]
      simp only [Option.getD_some]
      omega
    · have hnone : alistGet? o.price (buildPricelist st.sell_orders []) = none := by
        rcases hcase : alistGet? o.price (buildPricelist st.sell_orders []) with _ | w
        · rfl
        · exfalso
          rcases buildPricelist_keys_subset st.sell_orders [] o.price
              (mem_keys_of_alistGet?_some hcase) with hin | ⟨x, hx, hxp⟩
          · simp [keysOf] at hin
          · exact hpre (List.mem_map.mpr ⟨x, hx, hxp⟩)
      have hz : sumQty st.sell_orders o.price = 0 :=
        sumQty_eq_zero (fun x hx hc => hpre (List.mem_map.mpr ⟨x, hx, hc⟩))
      rw [hnone]
      simp only [Option.getD_none]
      omega

/-- A book already holding five distinct buy price levels. -/
def crowdedBook : Stock :=
  { symbol := "C", name := "C",
    buy_orders :=
      [{ creator_id := 1, price := 10400, quantity := 1, time := 0 },
       { creator_id := 2, price := 10300, quantity := 1, time := 1 },
       { creator_id := 3, price := 10200, quantity := 1, time := 2 },
       { creator_id := 4, price := 10100, quantity := 1, time := 3 },
       { creator_id := 5, price := 10000, quantity := 1, time := 4 }],
    sell_orders := [], ohlc := Ohlc.new }

/-- A sixth buy order below the five displayed levels. -/
def sixthOrder : Order := { creator_id := 6, price := 9900, quantity := 3, time := 5 }

/-- C8 counterexample: on a book with five distinct buy levels, adding a
lower-priced order leaves its level outside the displayed depth, so the
displayed quantity at its price does not increase by the order
quantity. -/
theorem c8_counterexample :
    levelQty ((crowdedBook.add_buy_order sixthOrder).get_buy_orders) sixthOrder.get_price ≠
      levelQty crowdedBook.get_buy_orders sixthOrder.get_price + sixthOrder.quantity := by
  norm_num [crowdedBook, sixthOrder, Stock.add_buy_order, Stock.sort_orders,
    Stock.get_buy_orders, buildPricelist, alistGet?, alistInsert, toDepthEntry,
    NO_OF_PRICES_QUERIED, keysOf, levelQty, Order.get_price, PRICE_PRECISION_FACTOR,
    List.insertionSort, List.orderedInsert, buyLe]

/-- A small book with one buy level and one sell level at price 100. -/
def smallBook : Stock :=
  { symbol := "S", name := "S",
    buy_orders := [{ creator_id := 1, price := 10000, quantity := 2, time := 0 }],
    sell_orders := [{ creator_id := 1, price := 10000, quantity := 2, time := 0 }],
    ohlc := Ohlc.new }

/-- Witness for C8: adding 3 shares at the already displayed level 100
raises the displayed quantity from 2 to 5, on both sides. -/
theorem c8_witness :
    levelQty ((smallBook.add_buy_order
        { creator_id := 2, price := 10000, quantity := 3, time := 1 }).get_buy_orders)
      (Order.get_price { creator_id := 2, price := 10000, quantity := 3, time := 1 }) =
      levelQty smallBook.get_buy_orders
        (Order.get_price { creator_id := 2, price := 10000, quantity := 3, time := 1 }) + 3 ∧
    levelQty ((smallBook.add_sell_order
        { creator_id := 2, price := 10000, quantity := 3, time := 1 }).get_sell_orders)
      (Order.get_price { creator_id := 2, price := 10000, quantity := 3, time := 1 }) =
      levelQty smallBook.get_sell_orders
        (Order.get_price { creator_id := 2, price := 10000, quantity := 3, time := 1 }) + 3 :=
  ⟨(c8_depth_after_add smallBook
      { creator_id := 2, price := 10000, quantity := 3, time := 1 }).1
    (by simp [smallBook])
    (by norm_num [smallBook, Stock.add_buy_order, Stock.sort_orders, Stock.get_buy_orders,
      buildPricelist, alistGet?, alistInsert, toDepthEntry, NO_OF_PRICES_QUERIED,
      Order.get_price, PRICE_PRECISION_FACTOR, List.insertionSort, List.orderedInsert, buyLe])
    (Or.inl (by norm_num [smallBook, Stock.get_buy_orders, buildPricelist, alistGet?,
      alistInsert, toDepthEntry, NO_OF_PRICES_QUERIED, Order.get_price,
      PRICE_PRECISION_FACTOR, List.insertionSort, List.orderedInsert])),
   (c8_depth_after_add smallBook
      { creator_id := 2, price := 10000, quantity := 3, time := 1 }).2
    (by simp [smallBook])
    (by norm_num [smallBook, Stock.add_sell_order, Stock.sort_orders, Stock.get_sell_orders,
      buildPricelist, alistGet?, alistInsert, toDepthEntry, NO_OF_PRICES_QUERIED,
      Order.get_price, PRICE_PRECISION_FACTOR, List.insertionSort, List.orderedInsert, sellLe])
    (Or.inl (by norm_num [smallBook, Stock.get_sell_orders, buildPricelist, alistGet?,
      alistInsert, toDepthEntry, NO_OF_PRICES_QUERIED, Order.get_price,
      PRICE_PRECISION_FACTOR, List.insertionSort, List.orderedInsert]))⟩

end D1x
